import Mathlib

/- Verification of the LockMe file-encryption core (lockme_fixed_gui.py).

   Bytes are modelled as Nat (values below 256 in the real program; no
   arithmetic here depends on the bound).  The AES block transform under a
   fixed key is external library code (pycryptodome), so it is modelled as
   an abstract function `E` (encryption direction) or `D` (decryption
   direction) on 16-byte blocks; CBC chaining, padding, envelope layout and
   the GUI action handlers are translated from the source. -/

namespace LockMe

/-- From the source: `BLOCK_SIZE = 16`. -/
def BLOCK_SIZE : Nat := 16

/-- Embedding of `pad`: `padding = BLOCK_SIZE - len(data) % BLOCK_SIZE;
return data + bytes([padding] * padding)`. -/
def pad (data : List Nat) : List Nat :=
  data ++ List.replicate (BLOCK_SIZE - data.length % BLOCK_SIZE)
    (BLOCK_SIZE - data.length % BLOCK_SIZE)

/-- Embedding of `unpad`: `padding = data[-1]; return data[:-padding]`.
`none` models the IndexError raised by `data[-1]` on an empty buffer.
The Python slice `data[:-p]` is empty for `p = 0` (it is `data[:0]`) and
otherwise keeps the first `len - p` bytes (clamped to empty when `p` is
larger than the length). -/
def unpad (data : List Nat) : Option (List Nat) :=
  data.getLast?.map fun p => if p = 0 then [] else data.take (data.length - p)

/-- Splits a byte list into cipher blocks of 16 bytes, fuel-structured so
that it evaluates by kernel reduction. -/
def toBlocksAux : Nat → List Nat → List (List Nat)
  | 0, _ => []
  | _ + 1, [] => []
  | fuel + 1, c :: rest => (c :: rest).take 16 :: toBlocksAux fuel ((c :: rest).drop 16)

/-- Block decomposition of a buffer, as the CBC layer of the cipher library
processes it: consecutive 16-byte chunks. -/
def toBlocks (l : List Nat) : List (List Nat) := toBlocksAux l.length l

/-- Byte-wise XOR of two blocks, as CBC chaining combines them. -/
def blockXor (a b : List Nat) : List Nat := List.zipWith (fun x y => x ^^^ y) a b

/-- CBC encryption of a block sequence: each plaintext block is XORed with
the previous ciphertext block (the IV for the first) before the block
transform `E`.  This is `AES.new(key, AES.MODE_CBC).encrypt`. -/
def cbcEnc (E : List Nat → List Nat) : List Nat → List (List Nat) → List (List Nat)
  | _, [] => []
  | prev, b :: bs => E (blockXor prev b) :: cbcEnc E (E (blockXor prev b)) bs

/-- CBC decryption of a block sequence, the inverse chaining:
each ciphertext block is put through the inverse block transform `D` and
XORed with the previous ciphertext block (the IV for the first). -/
def cbcDec (D : List Nat → List Nat) : List Nat → List (List Nat) → List (List Nat)
  | _, [] => []
  | prev, c :: cs => blockXor prev (D c) :: cbcDec D c cs

/-- Embedding of `encrypt_file`: pad the data, CBC-encrypt it, and return
the envelope `cipher.iv + cipher.encrypt(data)`.  The freshly generated IV
is the `iv` parameter; file I/O is abstracted away (the function returns the
bytes written to `<input>.enc`). -/
def encrypt_file (E : List Nat → List Nat) (iv data : List Nat) : List Nat :=
  iv ++ (cbcEnc E iv (toBlocks (pad data))).flatten

/-- Exceptions the Python core can raise while decrypting: the cipher
library's ValueError for a key that is not 16/24/32 bytes, its ValueError
for an IV that is not 16 bytes, its ValueError for ciphertext that is not a
multiple of 16 bytes, and the IndexError from `unpad` on an empty buffer. -/
inductive PyExc where
  | valueErrorKeyLength
  | valueErrorIVLength
  | valueErrorDataLength
  | indexError
  deriving DecidableEq

/-- Propagates the result of `unpad` inside `decrypt_file`: an empty
decrypted buffer makes `data[-1]` raise IndexError. -/
def unpadResult (o : Option (List Nat)) : Except PyExc (List Nat) :=
  match o with
  | none => Except.error PyExc.indexError
  | some r => Except.ok r

/-- Embedding of `decrypt_file`: split the envelope into `iv = f.read(16)`
and the remaining ciphertext, build the cipher (the library validates the
key length, then the IV length), decrypt (the library validates that the
data is a multiple of 16 bytes before processing blocks), and `unpad`.
The returned bytes are what is written to the output file. -/
def decrypt_file (D : List Nat → List Nat) (key envelope : List Nat) :
    Except PyExc (List Nat) :=
  let iv := envelope.take 16
  let ciphertext := envelope.drop 16
  if ¬ (key.length = 16 ∨ key.length = 24 ∨ key.length = 32) then
    Except.error PyExc.valueErrorKeyLength
  else if iv.length ≠ 16 then
    Except.error PyExc.valueErrorIVLength
  else if ciphertext.length % 16 ≠ 0 then
    Except.error PyExc.valueErrorDataLength
  else
    unpadResult (unpad ((cbcDec D iv (toBlocks ciphertext)).flatten))

/-- Terminal outcome of one user-triggered action: a success dialog, an
error dialog, or an exception escaping the handler uncaught. -/
inductive Outcome where
  | successDialog
  | errorDialog
  | uncaught (e : PyExc)
  deriving DecidableEq

/-- Embedding of `select_file_decrypt` (with a file selected and the
envelope readable): the `try` block catches only FileNotFoundError, shown
as an error dialog when `key.bin` is absent; any exception raised by
`decrypt_file` propagates out of the handler. -/
def select_file_decrypt (D : List Nat → List Nat) (keyFile : Option (List Nat))
    (envelope : List Nat) : Outcome :=
  match keyFile with
  | none => Outcome.errorDialog
  | some key =>
    match decrypt_file D key envelope with
    | Except.ok _ => Outcome.successDialog
    | Except.error e => Outcome.uncaught e

/-- Embedding of `select_file_encrypt`: when a file is selected, a fresh
random key (the `freshKey` parameter, from `get_random_bytes(32)`) is
written to `key.bin` — replacing whatever was stored there — and the file
is encrypted.  Returns the new `key.bin` contents and the envelope written.
When the dialog is cancelled nothing happens. -/
def select_file_encrypt (E : List Nat → List Nat) (keyBin : Option (List Nat))
    (selected : Option (List Nat)) (freshKey iv : List Nat) :
    Option (List Nat) × Option (List Nat) :=
  match selected with
  | none => (keyBin, none)
  | some data => (some freshKey, some (encrypt_file E iv data))

/-- Modelled from the spec (for comparison with `unpad`): the validated
strip step of the decrypt path — the final byte `p` must satisfy
`1 ≤ p ≤ 16` and the last `p` bytes must all equal `p`; `none` models the
InvalidPadding failure. -/
def unpadChecked (data : List Nat) : Option (List Nat) :=
  data.getLast?.bind fun p =>
    if 1 ≤ p ∧ p ≤ 16 ∧ p ≤ data.length ∧
        (data.drop (data.length - p)).all (fun b => b == p) then
      some (data.take (data.length - p))
    else none

/-- The literal suffix `.enc` appended by the encrypt path. -/
def encSuffix : List Char := ['.', 'e', 'n', 'c']

/-- The literal suffix `.dec` produced by the decrypt path. -/
def decSuffix : List Char := ['.', 'd', 'e', 'c']

/-- Embedding of the encrypt output path: `out_path = filepath + ".enc"`. -/
def enc_out_path (s : List Char) : List Char := s ++ encSuffix

/-- Python `str.replace('.enc', '.dec')` specialised to this call site:
left-to-right, non-overlapping replacement of every occurrence.
Fuel-structured on the length of the string. -/
def pyReplaceAux : Nat → List Char → List Char
  | 0, l => l
  | _ + 1, [] => []
  | fuel + 1, c :: rest =>
    if (c :: rest).take 4 = encSuffix then
      decSuffix ++ pyReplaceAux fuel ((c :: rest).drop 4)
    else
      c :: pyReplaceAux fuel rest

/-- Embedding of the decrypt output path:
`out_path = filepath.replace('.enc', '.dec')`. -/
def dec_out_path (s : List Char) : List Char := pyReplaceAux s.length s

/-- Whether `.enc` occurs anywhere in the string (at any position). -/
def hasEncOcc : List Char → Bool
  | [] => false
  | c :: rest => decide ((c :: rest).take 4 = encSuffix) || hasEncOcc rest

/-- Modelled from the spec: decrypt output path with the suffix `.enc`
removed and replaced by `.dec` when present, else `.dec` appended. -/
def spec_dec_out_path (s : List Char) : List Char :=
  if 4 ≤ s.length ∧ s.drop (s.length - 4) = encSuffix then
    s.take (s.length - 4) ++ decSuffix
  else s ++ decSuffix

/-- Helper: length of a byte-wise XOR of blocks. -/
lemma blockXor_length (a b : List Nat) (ha : a.length = 16) (hb : b.length = 16) :
    (blockXor a b).length = 16 := by
  simp only [blockXor, List.length_zipWith, ha, hb, inf_eq_min]
  omega

/-- Helper: XORing twice with the same block is the identity. -/
lemma blockXor_cancel : ∀ (a b : List Nat), a.length = b.length →
    blockXor a (blockXor a b) = b := by
  intro a
  induction a with
  | nil =>
    intro b h
    have hb : b = [] := List.length_eq_zero.mp (by simpa using h.symm)
    subst hb; rfl
  | cons x xs ih =>
    intro b h
    cases b with
    | nil => simp at h
    | cons y ys =>
      simp only [blockXor, List.zipWith_cons_cons]
      rw [← Nat.xor_assoc, Nat.xor_self, Nat.zero_xor]
      have := ih ys (by simpa using h)
      simp only [blockXor] at this
      rw [this]

/-- Helper: the fuel argument of `toBlocksAux` is irrelevant once it covers
the length of the list. -/
lemma toBlocksAux_eq : ∀ (f g : Nat) (l : List Nat), l.length ≤ f → l.length ≤ g →
    toBlocksAux f l = toBlocksAux g l := by
  intro f
  induction f with
  | zero =>
    intro g l hf _
    have : l = [] := List.length_eq_zero.mp (by omega)
    subst this
    cases g <;> rfl
  | succ f ih =>
    intro g l hf hg
    cases l with
    | nil => cases g <;> rfl
    | cons c rest =>
      cases g with
      | zero => simp only [List.length_cons] at hg; omega
      | succ g' =>
        simp only [toBlocksAux]
        congr 1
        apply ih
        · simp only [List.length_drop, List.length_cons] at *
          omega
        · simp only [List.length_drop, List.length_cons] at *
          omega

/-- Helper: unfolding equation for `toBlocks` on a nonempty list. -/
lemma toBlocks_eq_cons (c : Nat) (rest : List Nat) :
    toBlocks (c :: rest) = (c :: rest).take 16 :: toBlocks ((c :: rest).drop 16) := by
  show toBlocksAux (c :: rest).length (c :: rest) = _
  rw [List.length_cons]
  simp only [toBlocksAux]
  congr 1
  apply toBlocksAux_eq
  · simp only [List.length_drop, List.length_cons]
    omega
  · exact le_rfl

/-- Helper: unfolding equation for `toBlocks`, nonemptiness form. -/
lemma toBlocks_ne (l : List Nat) (h : l ≠ []) :
    toBlocks l = l.take 16 :: toBlocks (l.drop 16) := by
  cases l with
  | nil => exact absurd rfl h
  | cons c rest => exact toBlocks_eq_cons c rest

/-- Helper: reassembling the blocks of a buffer yields the buffer. -/
lemma toBlocks_flatten_aux : ∀ (n : Nat) (l : List Nat), l.length ≤ n →
    (toBlocks l).flatten = l := by
  intro n
  induction n with
  | zero =>
    intro l h
    have : l = [] := List.length_eq_zero.mp (by omega)
    subst this; rfl
  | succ n ih =>
    intro l h
    cases l with
    | nil => rfl
    | cons c rest =>
      rw [toBlocks_eq_cons, List.flatten_cons]
      rw [ih ((c :: rest).drop 16)
        (by simp only [List.length_drop, List.length_cons] at *; omega)]
      exact List.take_append_drop 16 (c :: rest)

/-- Helper: reassembling the blocks of a buffer yields the buffer. -/
lemma toBlocks_flatten (l : List Nat) : (toBlocks l).flatten = l :=
  toBlocks_flatten_aux l.length l le_rfl

/-- Helper: every block of a buffer whose length is a multiple of 16 has
exactly 16 bytes. -/
lemma toBlocks_sixteen_aux : ∀ (n : Nat) (l : List Nat), l.length ≤ n →
    l.length % 16 = 0 → ∀ b ∈ toBlocks l, b.length = 16 := by
  intro n
  induction n with
  | zero =>
    intro l h _ b hb
    have : l = [] := List.length_eq_zero.mp (by omega)
    subst this
    simp [toBlocks, toBlocksAux] at hb
  | succ n ih =>
    intro l h hmod b hb
    cases l with
    | nil => simp [toBlocks, toBlocksAux] at hb
    | cons c rest =>
      rw [toBlocks_eq_cons] at hb
      rcases List.mem_cons.mp hb with h1 | h2
      · subst h1
        simp only [List.length_take, List.length_cons, inf_eq_min]
        simp only [List.length_cons] at hmod
        omega
      · refine ih ((c :: rest).drop 16) ?_ ?_ b h2
        · simp only [List.length_drop, List.length_cons] at *
          omega
        · simp only [List.length_drop, List.length_cons] at *
          omega

/-- Helper: every block of a buffer whose length is a multiple of 16 has
exactly 16 bytes. -/
lemma toBlocks_sixteen (l : List Nat) (hmod : l.length % 16 = 0) :
    ∀ b ∈ toBlocks l, b.length = 16 :=
  toBlocks_sixteen_aux l.length l le_rfl hmod

/-- Helper: splitting a concatenation of 16-byte blocks recovers the blocks. -/
lemma toBlocks_of_flatten : ∀ (cs : List (List Nat)),
    (∀ b ∈ cs, b.length = 16) → toBlocks cs.flatten = cs := by
  intro cs
  induction cs with
  | nil => intro _; rfl
  | cons b cs ih =>
    intro h
    have hb : b.length = 16 := h b (List.mem_cons_self _ _)
    rw [List.flatten_cons]
    have hne : b ++ cs.flatten ≠ [] := by
      intro hc
      have := congrArg List.length hc
      simp [hb] at this
    rw [toBlocks_ne _ hne, List.take_left' hb, List.drop_left' hb]
    rw [ih (fun x hx => h x (List.mem_cons_of_mem _ hx))]

/-- Helper: under a length-preserving block transform, every CBC ciphertext
block has 16 bytes. -/
lemma cbcEnc_sixteen (E : List Nat → List Nat)
    (hE : ∀ b : List Nat, b.length = 16 → (E b).length = 16) :
    ∀ (bs : List (List Nat)) (prev : List Nat), prev.length = 16 →
      (∀ b ∈ bs, b.length = 16) → ∀ c ∈ cbcEnc E prev bs, c.length = 16 := by
  intro bs
  induction bs with
  | nil => intro prev _ _ c hc; simp [cbcEnc] at hc
  | cons b bs ih =>
    intro prev hprev hmem c hc
    have hb : b.length = 16 := hmem b (List.mem_cons_self _ _)
    have hx : (blockXor prev b).length = 16 := blockXor_length prev b hprev hb
    simp only [cbcEnc] at hc
    rcases List.mem_cons.mp hc with h1 | h2
    · rw [h1]
      exact hE _ hx
    · exact ih (E (blockXor prev b)) (hE _ hx)
        (fun x hx' => hmem x (List.mem_cons_of_mem _ hx')) c h2

/-- Helper: CBC encryption preserves the total byte length. -/
lemma cbcEnc_flatten_length (E : List Nat → List Nat)
    (hE : ∀ b : List Nat, b.length = 16 → (E b).length = 16) :
    ∀ (bs : List (List Nat)) (prev : List Nat), prev.length = 16 →
      (∀ b ∈ bs, b.length = 16) →
      ((cbcEnc E prev bs).flatten).length = bs.flatten.length := by
  intro bs
  induction bs with
  | nil => intro prev _ _; rfl
  | cons b bs ih =>
    intro prev hprev hmem
    have hb : b.length = 16 := hmem b (List.mem_cons_self _ _)
    have hx : (blockXor prev b).length = 16 := blockXor_length prev b hprev hb
    simp only [cbcEnc, List.flatten_cons, List.length_append]
    rw [hE _ hx, hb]
    rw [ih (E (blockXor prev b)) (hE _ hx)
      (fun x hx' => hmem x (List.mem_cons_of_mem _ hx'))]

/-- Helper: CBC decryption inverts CBC encryption block by block when the
block transform is inverted by `D` on 16-byte blocks. -/
lemma cbcDec_cbcEnc (E D : List Nat → List Nat)
    (hDE : ∀ b : List Nat, b.length = 16 → D (E b) = b)
    (hE : ∀ b : List Nat, b.length = 16 → (E b).length = 16) :
    ∀ (bs : List (List Nat)) (prev : List Nat), prev.length = 16 →
      (∀ b ∈ bs, b.length = 16) → cbcDec D prev (cbcEnc E prev bs) = bs := by
  intro bs
  induction bs with
  | nil => intro prev _ _; rfl
  | cons b bs ih =>
    intro prev hprev hmem
    have hb : b.length = 16 := hmem b (List.mem_cons_self _ _)
    have hx : (blockXor prev b).length = 16 := blockXor_length prev b hprev hb
    simp only [cbcEnc, cbcDec]
    rw [hDE _ hx, blockXor_cancel prev b (by omega)]
    rw [ih (E (blockXor prev b)) (hE _ hx)
      (fun x hx' => hmem x (List.mem_cons_of_mem _ hx'))]

/-- Helper: length of the padded buffer. -/
lemma pad_length (data : List Nat) :
    (pad data).length = data.length + (16 - data.length % 16) := by
  simp [pad, BLOCK_SIZE]

/-- Helper: the padded buffer is always a whole number of blocks. -/
lemma pad_length_mod (data : List Nat) : (pad data).length % 16 = 0 := by
  rw [pad_length]
  omega

/-- Helper: the last byte of a padded buffer is the pad amount. -/
lemma getLast?_pad (data : List Nat) :
    (pad data).getLast? = some (16 - data.length % 16) := by
  obtain ⟨k, hk⟩ : ∃ k, 16 - data.length % 16 = k + 1 :=
    ⟨16 - data.length % 16 - 1, by omega⟩
  show (data ++ List.replicate (16 - data.length % 16)
    (16 - data.length % 16)).getLast? = _
  rw [hk, List.replicate_succ', ← List.append_assoc, List.getLast?_concat]

/-- Helper: stripping the padding recovers the original buffer. -/
lemma unpad_pad (data : List Nat) : unpad (pad data) = some data := by
  have hlast := getLast?_pad data
  have hlen : (pad data).length = data.length + (16 - data.length % 16) :=
    pad_length data
  simp only [unpad, hlast, Option.map_some']
  rw [if_neg (by omega : ¬ (16 - data.length % 16 = 0))]
  congr 1
  rw [hlen, Nat.add_sub_cancel]
  show (data ++ List.replicate (16 - data.length % 16)
    (16 - data.length % 16)).take data.length = data
  exact List.take_left' rfl

/-- Helper: replacement on the empty string is the empty string. -/
lemma pyReplaceAux_nil (f : Nat) : pyReplaceAux f [] = [] := by
  cases f <;> rfl

/-- Helper: a 4-character window that reaches into a trailing `.enc` from a
position strictly before it can never itself read `.enc`, because no proper
prefix of the string `.enc` can be completed by its own start. -/
lemma window_ne (c : Char) (u' : List Char)
    (hhead : (c :: u').take 4 ≠ encSuffix) :
    (c :: (u' ++ encSuffix)).take 4 ≠ encSuffix := by
  rcases u' with _ | ⟨a, _ | ⟨b, _ | ⟨d, rest⟩⟩⟩
  · intro h
    have h' : c :: '.' :: 'e' :: 'n' :: ([] : List Char) = encSuffix := h
    injection h' with h1 h2
    injection h2 with h3 h4
    exact absurd h3 (by decide)
  · intro h
    have h' : c :: a :: '.' :: 'e' :: ([] : List Char) = encSuffix := h
    injection h' with h1 h2
    injection h2 with h3 h4
    injection h4 with h5 h6
    exact absurd h5 (by decide)
  · intro h
    have h' : c :: a :: b :: '.' :: ([] : List Char) = encSuffix := h
    injection h' with h1 h2
    injection h2 with h3 h4
    injection h4 with h5 h6
    injection h6 with h7 h8
    exact absurd h7 (by decide)
  · intro h
    exact hhead h

/-- Helper: a string in which `.enc` never occurs is returned unchanged by
the replacement. -/
lemma pyReplaceAux_no_occ : ∀ (fuel : Nat) (l : List Char),
    hasEncOcc l = false → pyReplaceAux fuel l = l := by
  intro fuel
  induction fuel with
  | zero => intro l _; rfl
  | succ f ih =>
    intro l hocc
    cases l with
    | nil => rfl
    | cons c rest =>
      simp only [hasEncOcc, Bool.or_eq_false_iff, decide_eq_false_iff_not] at hocc
      simp only [pyReplaceAux]
      rw [if_neg hocc.1, ih rest hocc.2]

/-- Helper: appending `.enc` to a string in which `.enc` never occurs and
replacing yields the string with `.dec` appended. -/
lemma pyReplaceAux_append_enc : ∀ (fuel : Nat) (u : List Char),
    u.length + 4 ≤ fuel → hasEncOcc u = false →
    pyReplaceAux fuel (u ++ encSuffix) = u ++ decSuffix := by
  intro fuel
  induction fuel with
  | zero => intro u h _; exact absurd h (by omega)
  | succ f ih =>
    intro u hlen hocc
    cases u with
    | nil =>
      simp only [List.nil_append, encSuffix]
      simp only [pyReplaceAux]
      rw [if_pos (by decide)]
      have hdrop : (['.', 'e', 'n', 'c'] : List Char).drop 4 = [] := by decide
      rw [hdrop, pyReplaceAux_nil, List.append_nil]
    | cons c u' =>
      simp only [hasEncOcc, Bool.or_eq_false_iff, decide_eq_false_iff_not] at hocc
      obtain ⟨hhead, htail⟩ := hocc
      rw [List.cons_append]
      simp only [pyReplaceAux]
      rw [if_neg (window_ne c u' hhead)]
      rw [List.cons_append]
      have hlen' : u'.length + 4 ≤ f := by
        simp only [List.length_cons] at hlen
        omega
      rw [ih u' hlen' htail]

/-- C1: for every byte sequence `P` (including the empty sequence and
sequences whose length is a multiple of 16), every 32-byte key and every
16-byte IV, decrypting the envelope produced by `encrypt_file` with the
inverse block transform of the same key yields exactly `P`.  The AES block
permutation under the key is abstracted as `E` with inverse `D`. -/
theorem c1_round_trip (E D : List Nat → List Nat)
    (hDE : ∀ b : List Nat, b.length = 16 → D (E b) = b)
    (hE : ∀ b : List Nat, b.length = 16 → (E b).length = 16)
    (key iv : List Nat) (hkey : key.length = 32) (hiv : iv.length = 16)
    (P : List Nat) :
    decrypt_file D key (encrypt_file E iv P) = Except.ok P := by
  have hmod : (pad P).length % 16 = 0 := pad_length_mod P
  have hblocks : ∀ b ∈ toBlocks (pad P), b.length = 16 := toBlocks_sixteen (pad P) hmod
  have hct : ∀ c ∈ cbcEnc E iv (toBlocks (pad P)), c.length = 16 :=
    cbcEnc_sixteen E hE (toBlocks (pad P)) iv hiv hblocks
  have hctlen : ((cbcEnc E iv (toBlocks (pad P))).flatten).length % 16 = 0 := by
    rw [cbcEnc_flatten_length E hE _ iv hiv hblocks, toBlocks_flatten]
    exact hmod
  simp only [encrypt_file, decrypt_file]
  rw [List.take_left' hiv, List.drop_left' hiv]
  rw [if_neg (not_not_intro (Or.inr (Or.inr hkey)))]
  rw [if_neg (not_not_intro hiv)]
  rw [if_neg (not_not_intro hctlen)]
  rw [toBlocks_of_flatten _ hct]
  rw [cbcDec_cbcEnc E D hDE hE (toBlocks (pad P)) iv hiv hblocks]
  rw [toBlocks_flatten, unpad_pad]
  rfl

/-- Witness for C1: the identity block transform is length preserving and
self-inverse, so the round trip evaluates on the concrete plaintext
`[104, 105]` with a concrete 32-byte key and 16-byte IV. -/
theorem c1_round_trip_witness :
    decrypt_file (fun b => b) (List.replicate 32 0)
      (encrypt_file (fun b => b) (List.replicate 16 0) [104, 105]) =
      Except.ok [104, 105] :=
  c1_round_trip (fun b => b) (fun b => b) (fun _ _ => rfl) (fun _ h => h)
    (List.replicate 32 0) (List.replicate 16 0) rfl rfl [104, 105]

/-- C7: `pad` appends exactly `p = 16 - len % 16` bytes each of value `p`,
with `1 ≤ p ≤ 16`, `p ≡ -len (mod 16)`, `p = 16` for aligned input, and the
padded length is `len + p`, a multiple of 16. -/
theorem c7_pad_correct (data : List Nat) :
    1 ≤ 16 - data.length % 16 ∧
    16 - data.length % 16 ≤ 16 ∧
    (data.length + (16 - data.length % 16)) % 16 = 0 ∧
    pad data = data ++ List.replicate (16 - data.length % 16)
      (16 - data.length % 16) ∧
    (pad data).length = data.length + (16 - data.length % 16) ∧
    (pad data).length % 16 = 0 ∧
    (data.length % 16 = 0 → 16 - data.length % 16 = 16) := by
  have hlen := pad_length data
  exact ⟨by omega, by omega, by omega, rfl, hlen, by rw [hlen]; omega, by omega⟩

/-- Witness for C7: the padding facts evaluated at the empty plaintext. -/
theorem c7_pad_correct_witness :
    1 ≤ 16 - ([] : List Nat).length % 16 ∧
    16 - ([] : List Nat).length % 16 ≤ 16 ∧
    (([] : List Nat).length + (16 - ([] : List Nat).length % 16)) % 16 = 0 ∧
    pad [] = ([] : List Nat) ++ List.replicate (16 - ([] : List Nat).length % 16)
      (16 - ([] : List Nat).length % 16) ∧
    (pad ([] : List Nat)).length = ([] : List Nat).length +
      (16 - ([] : List Nat).length % 16) ∧
    (pad ([] : List Nat)).length % 16 = 0 ∧
    (([] : List Nat).length % 16 = 0 → 16 - ([] : List Nat).length % 16 = 16) :=
  c7_pad_correct []

/-- C10: `unpad` is total on every nonempty buffer and never reports an
error; it removes the last `p` bytes where `p` is the final byte, returning
the empty byte string when `p = 0` or `p` exceeds the buffer length; only
the empty buffer — the decryption of an envelope of exactly 16 bytes —
raises the out-of-range indexing error. -/
theorem c10_unpad_total :
    unpad ([] : List Nat) = none ∧
    (∀ data : List Nat, data ≠ [] → (unpad data).isSome = true) ∧
    (∀ (data : List Nat) (p : Nat), data.getLast? = some p →
      unpad data = some (if p = 0 ∨ data.length < p then []
        else data.take (data.length - p))) ∧
    (∀ (D : List Nat → List Nat) (key env : List Nat), key.length = 32 →
      env.length = 16 → decrypt_file D key env = Except.error PyExc.indexError) := by
  refine ⟨rfl, ?_, ?_, ?_⟩
  · intro data hne
    obtain ⟨p, hp⟩ : ∃ p, data.getLast? = some p := by
      cases data with
      | nil => exact absurd rfl hne
      | cons a l => exact ⟨(a :: l).getLast (by simp), List.getLast?_eq_getLast _ _⟩
    simp [unpad, hp]
  · intro data p hp
    simp only [unpad, hp, Option.map_some']
    by_cases h0 : p = 0
    · simp [h0]
    · by_cases hl : data.length < p
      · have h1 : data.length - p = 0 := by omega
        simp [h0, hl, h1]
      · simp [h0, hl]
  · intro D key env hkey henv
    have hdrop : env.drop 16 = [] := List.drop_eq_nil_of_le (by omega)
    have htake : (env.take 16).length = 16 := by
      simp only [List.length_take, inf_eq_min]
      omega
    simp only [decrypt_file]
    rw [if_neg (not_not_intro (Or.inr (Or.inr hkey)))]
    rw [if_neg (not_not_intro htake)]
    rw [hdrop]
    rw [if_neg (by decide : ¬ ([] : List Nat).length % 16 ≠ 0)]
    rfl

/-- Witness for C10: the empty buffer raises, `[7, 7, 1]` strips one byte,
and a concrete 16-byte envelope under a concrete 32-byte key raises the
indexing error. -/
theorem c10_unpad_total_witness :
    unpad ([] : List Nat) = none ∧
    (unpad [7, 7, 1]).isSome = true ∧
    unpad [7, 7, 1] = some (if 1 = 0 ∨ [7, 7, 1].length < 1 then []
      else [7, 7, 1].take ([7, 7, 1].length - 1)) ∧
    decrypt_file (fun b => b) (List.replicate 32 0) (List.replicate 16 0) =
      Except.error PyExc.indexError :=
  ⟨c10_unpad_total.1, c10_unpad_total.2.1 [7, 7, 1] (by decide),
    c10_unpad_total.2.2.1 [7, 7, 1] 1 rfl,
    c10_unpad_total.2.2.2 (fun b => b) (List.replicate 32 0)
      (List.replicate 16 0) rfl rfl⟩

/-- Counterexample for C2: the decrypted buffer `[1, 2, 3, 2]` ends in
`p = 2` but its last two bytes are not both `2`; the claimed check would
fail with InvalidPadding (`unpadChecked` returns `none`), yet the code's
`unpad` silently strips two bytes. -/
theorem c2_counterexample :
    unpad [1, 2, 3, 2] = some [1, 2] ∧
    unpadChecked [1, 2, 3, 2] = none ∧
    unpad [1, 2, 3, 2] ≠ unpadChecked [1, 2, 3, 2] :=
  ⟨rfl, rfl, by decide⟩

/-- C2 (amended): during decryption the final byte `p` of the decrypted
buffer is read and the last `p` bytes are removed unconditionally — no
bound or content check is performed and no InvalidPadding failure exists;
every nonempty buffer is stripped successfully. -/
theorem c2_unpad_unvalidated (data : List Nat) (p : Nat)
    (hp : data.getLast? = some p) :
    (unpad data).isSome = true ∧
    (1 ≤ p → p ≤ data.length → unpad data = some (data.take (data.length - p))) := by
  constructor
  · simp [unpad, hp]
  · intro h1 _
    simp only [unpad, hp, Option.map_some']
    rw [if_neg (by omega : ¬ p = 0)]

/-- Witness for C2 (amended): applied to the malformed buffer
`[1, 2, 3, 2]`, which is stripped without complaint. -/
theorem c2_unpad_unvalidated_witness :
    (unpad [1, 2, 3, 2]).isSome = true ∧
    unpad [1, 2, 3, 2] = some ([1, 2, 3, 2].take ([1, 2, 3, 2].length - 2)) :=
  ⟨(c2_unpad_unvalidated [1, 2, 3, 2] 2 rfl).1,
    (c2_unpad_unvalidated [1, 2, 3, 2] 2 rfl).2 (by decide) (by decide)⟩

/-- Counterexample for C3: with a well-formed 32-byte key on disk, decrypting
a 5-byte envelope raises the cipher library's IV-length ValueError, which the
action handler does not catch — the failure escapes the action boundary as an
uncaught exception instead of becoming a user-visible message. -/
theorem c3_counterexample :
    select_file_decrypt (fun b => b) (some (List.replicate 32 0))
      (List.replicate 5 0) = Outcome.uncaught PyExc.valueErrorIVLength := rfl

/-- C3 (amended): in the decrypt action only the missing key file is caught
and converted to an error dialog; every error raised by `decrypt_file`
escapes the handler as an uncaught exception. -/
theorem c3_only_key_missing_caught (D : List Nat → List Nat)
    (keyFile : Option (List Nat)) (env : List Nat) :
    (keyFile = none → select_file_decrypt D keyFile env = Outcome.errorDialog) ∧
    (∀ (key : List Nat) (e : PyExc), keyFile = some key →
      decrypt_file D key env = Except.error e →
      select_file_decrypt D keyFile env = Outcome.uncaught e) := by
  constructor
  · intro h
    subst h
    rfl
  · intro key e hk he
    subst hk
    simp [select_file_decrypt, he]

/-- Witness for C3 (amended): a missing key file shows the dialog, while a
concrete 4-byte envelope under a 32-byte key escapes uncaught. -/
theorem c3_only_key_missing_caught_witness :
    select_file_decrypt (fun b => b) none [] = Outcome.errorDialog ∧
    select_file_decrypt (fun b => b) (some (List.replicate 32 0))
      (List.replicate 4 0) = Outcome.uncaught PyExc.valueErrorIVLength :=
  ⟨(c3_only_key_missing_caught (fun b => b) none []).1 rfl,
    (c3_only_key_missing_caught (fun b => b) (some (List.replicate 32 0))
      (List.replicate 4 0)).2 (List.replicate 32 0) PyExc.valueErrorIVLength
      rfl rfl⟩

/-- Counterexample for C4: a 16-byte key file is not 32 bytes long, yet the
decrypt operation does not fail at all — it is silently accepted by the
cipher (as AES-128) and the decryption succeeds, refuting that any non-32
byte count fails with InvalidKeyLength. -/
theorem c4_counterexample :
    (List.replicate 16 0).length ≠ 32 ∧
    decrypt_file (fun b => b) (List.replicate 16 0)
      (List.replicate 16 0 ++ List.replicate 16 1) =
      Except.ok (List.replicate 15 1) :=
  ⟨by decide, rfl⟩

/-- C4 (amended): the key file's contents are passed to the cipher without
validation or adjustment; a length outside {16, 24, 32} raises the cipher
constructor's ValueError, which escapes the decrypt action uncaught rather
than being reported as InvalidKeyLength. -/
theorem c4_key_unvalidated (D : List Nat → List Nat) (key env : List Nat)
    (h : ¬ (key.length = 16 ∨ key.length = 24 ∨ key.length = 32)) :
    decrypt_file D key env = Except.error PyExc.valueErrorKeyLength ∧
    select_file_decrypt D (some key) env =
      Outcome.uncaught PyExc.valueErrorKeyLength := by
  have h1 : decrypt_file D key env = Except.error PyExc.valueErrorKeyLength := by
    simp only [decrypt_file]
    rw [if_pos h]
  exact ⟨h1, by simp [select_file_decrypt, h1]⟩

/-- Witness for C4 (amended): an 8-byte key file raises the key-length
ValueError and it escapes the handler. -/
theorem c4_key_unvalidated_witness :
    decrypt_file (fun b => b) (List.replicate 8 0) [] =
      Except.error PyExc.valueErrorKeyLength ∧
    select_file_decrypt (fun b => b) (some (List.replicate 8 0)) [] =
      Outcome.uncaught PyExc.valueErrorKeyLength :=
  c4_key_unvalidated (fun b => b) (List.replicate 8 0) [] (by decide)

/-- C5: with a 32-byte key, an envelope shorter than 16 bytes is rejected
(the cipher's IV-length error, the spec's EnvelopeTooShort), and an envelope
whose region after the first 16 bytes is not a multiple of 16 is rejected
(the cipher's data-length error, the spec's InvalidCiphertextLength); both
results hold for every block transform `D`, i.e. the rejection happens
before any block decryption is attempted. -/
theorem c5_length_checks (key env : List Nat) (hkey : key.length = 32) :
    (env.length < 16 → ∀ D : List Nat → List Nat,
      decrypt_file D key env = Except.error PyExc.valueErrorIVLength) ∧
    (16 ≤ env.length → (env.length - 16) % 16 ≠ 0 →
      ∀ D : List Nat → List Nat,
      decrypt_file D key env = Except.error PyExc.valueErrorDataLength) := by
  constructor
  · intro h D
    have hcond : (env.take 16).length ≠ 16 := by
      simp only [List.length_take, inf_eq_min]
      omega
    simp only [decrypt_file]
    rw [if_neg (not_not_intro (Or.inr (Or.inr hkey)))]
    rw [if_pos hcond]
  · intro h1 h2 D
    have htake : (env.take 16).length = 16 := by
      simp only [List.length_take, inf_eq_min]
      omega
    have hcond : (env.drop 16).length % 16 ≠ 0 := by
      simp only [List.length_drop]
      exact h2
    simp only [decrypt_file]
    rw [if_neg (not_not_intro (Or.inr (Or.inr hkey)))]
    rw [if_neg (not_not_intro htake)]
    rw [if_pos hcond]

/-- Witness for C5: a 5-byte envelope and a 20-byte envelope under a
concrete 32-byte key, with the identity block transform. -/
theorem c5_length_checks_witness :
    decrypt_file (fun b => b) (List.replicate 32 0) (List.replicate 5 0) =
      Except.error PyExc.valueErrorIVLength ∧
    decrypt_file (fun b => b) (List.replicate 32 0) (List.replicate 20 0) =
      Except.error PyExc.valueErrorDataLength :=
  ⟨(c5_length_checks (List.replicate 32 0) (List.replicate 5 0) (by decide)).1
      (by decide) (fun b => b),
    (c5_length_checks (List.replicate 32 0) (List.replicate 20 0) (by decide)).2
      (by decide) (by decide) (fun b => b)⟩

/-- Counterexample for C6: for the input path `foo.bin`, which does not end
in `.enc`, the code's decrypt output path is `foo.bin` itself (the input is
overwritten), while the claim demands `foo.bin.dec`. -/
theorem c6_counterexample :
    dec_out_path ['f', 'o', 'o', '.', 'b', 'i', 'n'] =
      ['f', 'o', 'o', '.', 'b', 'i', 'n'] ∧
    spec_dec_out_path ['f', 'o', 'o', '.', 'b', 'i', 'n'] =
      ['f', 'o', 'o', '.', 'b', 'i', 'n', '.', 'd', 'e', 'c'] ∧
    dec_out_path ['f', 'o', 'o', '.', 'b', 'i', 'n'] ≠
      spec_dec_out_path ['f', 'o', 'o', '.', 'b', 'i', 'n'] :=
  ⟨by decide, by decide, by decide⟩

/-- C6 (amended): the encrypt output path is the input path with `.enc`
appended; the decrypt output path is the input path with every occurrence
of the substring `.enc` replaced by `.dec` — in particular a path ending in
`.enc` with no other occurrence maps to the same path ending in `.dec`, but
a path in which `.enc` does not occur is returned unchanged, so no `.dec`
is appended and the decrypt output overwrites the input file. -/
theorem c6_out_paths (s t u : List Char) (ht : hasEncOcc t = false)
    (hu : hasEncOcc u = false) :
    enc_out_path s = s ++ encSuffix ∧
    dec_out_path t = t ∧
    dec_out_path (u ++ encSuffix) = u ++ decSuffix := by
  refine ⟨rfl, pyReplaceAux_no_occ t.length t ht, ?_⟩
  have hl : (u ++ encSuffix).length = u.length + 4 := by
    simp [encSuffix]
  simp only [dec_out_path]
  rw [hl]
  exact pyReplaceAux_append_enc (u.length + 4) u le_rfl hu

/-- Witness for C6 (amended): concrete paths `a`, `foo.bin` and `a.enc`. -/
theorem c6_out_paths_witness :
    enc_out_path ['a'] = ['a'] ++ encSuffix ∧
    dec_out_path ['f', 'o', 'o', '.', 'b', 'i', 'n'] =
      ['f', 'o', 'o', '.', 'b', 'i', 'n'] ∧
    dec_out_path (['a'] ++ encSuffix) = ['a'] ++ decSuffix :=
  c6_out_paths ['a'] ['f', 'o', 'o', '.', 'b', 'i', 'n'] ['a']
    (by decide) (by decide)

/-- C8: under a length-preserving block transform and a 16-byte IV, every
envelope produced by `encrypt_file` is the IV followed by the ciphertext:
its length is `16 + len + (16 - len % 16)`, hence at least 16 with the rest
a multiple of 16; a 5-byte plaintext yields 32 bytes and a 16-byte
plaintext yields 48 bytes. -/
theorem c8_envelope_shape (E : List Nat → List Nat)
    (hE : ∀ b : List Nat, b.length = 16 → (E b).length = 16)
    (iv : List Nat) (hiv : iv.length = 16) (data : List Nat) :
    (encrypt_file E iv data).length =
      16 + (data.length + (16 - data.length % 16)) ∧
    16 ≤ (encrypt_file E iv data).length ∧
    ((encrypt_file E iv data).length - 16) % 16 = 0 ∧
    (data.length = 5 → (encrypt_file E iv data).length = 32) ∧
    (data.length = 16 → (encrypt_file E iv data).length = 48) := by
  have h1 : (encrypt_file E iv data).length =
      16 + (data.length + (16 - data.length % 16)) := by
    simp only [encrypt_file, List.length_append]
    rw [cbcEnc_flatten_length E hE _ iv hiv
      (toBlocks_sixteen _ (pad_length_mod data))]
    rw [toBlocks_flatten, hiv, pad_length]
  refine ⟨h1, by rw [h1]; omega, by rw [h1]; omega, ?_, ?_⟩
  · intro h5
    rw [h1, h5]
  · intro h16
    rw [h1, h16]

/-- Witness for C8: the identity block transform, a concrete 16-byte IV and
the 5-byte plaintext `hello` give a 32-byte envelope. -/
theorem c8_envelope_shape_witness :
    (encrypt_file (fun b => b) (List.replicate 16 0)
      [104, 101, 108, 108, 111]).length = 32 :=
  (c8_envelope_shape (fun b => b) (fun _ h => h) (List.replicate 16 0) rfl
    [104, 101, 108, 108, 111]).2.2.2.1 rfl

/-- C9: whenever the encrypt action runs with a file selected, the fresh
random key is written to `key.bin`, overwriting whatever was stored; after
a second encrypt action the first key is no longer stored in `key.bin`. -/
theorem c9_key_overwritten (E : List Nat → List Nat) (keyBin0 : Option (List Nat))
    (d1 d2 k1 k2 iv1 iv2 : List Nat) (hne : k1 ≠ k2) :
    (select_file_encrypt E keyBin0 (some d1) k1 iv1).1 = some k1 ∧
    (select_file_encrypt E (select_file_encrypt E keyBin0 (some d1) k1 iv1).1
      (some d2) k2 iv2).1 = some k2 ∧
    (select_file_encrypt E (select_file_encrypt E keyBin0 (some d1) k1 iv1).1
      (some d2) k2 iv2).1 ≠ some k1 := by
  refine ⟨rfl, rfl, ?_⟩
  intro h
  have h' : some k2 = some k1 := h
  exact hne (Option.some.inj h').symm

/-- Witness for C9: two concrete distinct 32-byte keys; after the second
encrypt action `key.bin` holds the second key and no longer the first. -/
theorem c9_key_overwritten_witness :
    (select_file_encrypt (fun b => b) none (some [104]) (List.replicate 32 0)
      (List.replicate 16 0)).1 = some (List.replicate 32 0) ∧
    (select_file_encrypt (fun b => b)
      (select_file_encrypt (fun b => b) none (some [104]) (List.replicate 32 0)
        (List.replicate 16 0)).1
      (some [105]) (List.replicate 32 1) (List.replicate 16 1)).1 =
      some (List.replicate 32 1) ∧
    (select_file_encrypt (fun b => b)
      (select_file_encrypt (fun b => b) none (some [104]) (List.replicate 32 0)
        (List.replicate 16 0)).1
      (some [105]) (List.replicate 32 1) (List.replicate 16 1)).1 ≠
      some (List.replicate 32 0) :=
  c9_key_overwritten (fun b => b) none [104] [105] (List.replicate 32 0)
    (List.replicate 32 1) (List.replicate 16 0) (List.replicate 16 1) (by decide)

end LockMe
